import Mathlib

/-!
Verification of the PDF-parsing pipeline of the `arxiv-paper-curator`
repository, centred on `src/services/pdf_parser/deepseek.py`
(`DeepSeekParser`) and `src/services/pdf_parser/parser.py`
(`PDFParserService`).

Python strings are modelled as `List Char`; each Python operation used by
the source (`str.split('\n')`, `str.strip()`, `str.lower()`, `in`,
`"sep".join`, the regex `^(#{1,6})\s+(.+)$`) is given an explicit Lean
definition mirroring its semantics on the inputs the code feeds it
(ASCII whitespace; lines produced by `split('\n')` contain no newline).
-/

/-- Python strings are modelled as lists of characters. -/
abbrev Str := List Char

/-- Model of Python's whitespace class for `str.strip` and `\s`
(ASCII subset: space, tab, newline, carriage return, vertical tab,
form feed). -/
def isWs (c : Char) : Bool :=
  c == ' ' || c == '\t' || c == '\n' || c == '\r' || c == '\x0b' || c == '\x0c'

/-- Model of Python `str.lstrip()`. -/
def lstrip (s : Str) : Str := s.dropWhile isWs

/-- Model of Python `str.rstrip()`. -/
def rstrip (s : Str) : Str := (s.reverse.dropWhile isWs).reverse

/-- Model of Python `str.strip()`. -/
def pstrip (s : Str) : Str := rstrip (lstrip s)

/-- Model of Python `str.split('\n')`: split on every newline; never
returns the empty list (`"".split('\n') == [""]`). -/
def splitNl : Str → List Str
  | [] => [[]]
  | c :: cs =>
    if c = '\n' then [] :: splitNl cs
    else
      match splitNl cs with
      | [] => [[c]]
      | l :: ls => (c :: l) :: ls

/-- Model of Python `sep.join(parts)`. -/
def joinSep (sep : Str) : List Str → Str
  | [] => []
  | [x] => x
  | x :: y :: xs => x ++ sep ++ joinSep sep (y :: xs)

/-- Concatenation of lines each terminated by a newline: the shape of the
`current_section["content"]` accumulator in
`DeepSeekParser._parse_markdown_to_sections` (`content += line + "\n"`). -/
def joinNlTerm (ls : List Str) : Str := (ls.map (· ++ ['\n'])).foldr (· ++ ·) []

/-- Model of Python `str.lower()` (ASCII letters; the messages the code
lowercases are ASCII). -/
def pyLower (s : Str) : Str := s.map Char.toLower

/-- `startsWith pat s`: `pat` is a prefix of `s` (helper for the model of
Python's `in` operator on strings). -/
def startsWith : Str → Str → Bool
  | [], _ => true
  | _ :: _, [] => false
  | p :: ps, c :: cs => p == c && startsWith ps cs

/-- Model of Python `pat in s` for strings: some contiguous run of `s`
equals `pat`. -/
def containsSub (pat : Str) : Str → Bool
  | [] => pat == []
  | c :: rest => startsWith pat (c :: rest) || containsSub pat rest

/-! ## The section segmenter

`DeepSeekParser._parse_markdown_to_sections` (deepseek.py lines 190-243).
-/

/-- `src/schemas/pdf_parser/models.py` is not part of the given sources;
the field set is taken from the constructor calls in
`_parse_markdown_to_sections` and from the spec's §3 `PaperSection`
record: title, content, level. -/
structure PaperSection where
  title : Str
  content : Str
  level : Nat
  deriving DecidableEq, Repr

/-- The `current_section` dict of `_parse_markdown_to_sections`.  The
initial dict `{"title": "Content", "content": ""}` has no `"level"` key,
hence `level?` is an `Option`; `current_section.get("level", 1)` becomes
`level?.getD 1`. -/
structure CurSection where
  title : Str
  content : Str
  level? : Option Nat
  deriving DecidableEq, Repr

/-- Model of `re.match(r'^(#{1,6})\s+(.+)$', line)` on a line containing
no `'\n'`, returning `(len(group(1)), group(2))` on success.

With backtracking: the hash group takes the whole leading run of `'#'`
(1–6 of them; a 7th hash makes every split fail since `\s` does not match
`'#'`); then `\s+` greedily takes the whole whitespace run, backing off
one character when `(.+)` would otherwise be empty (so a line of hashes
followed by two or more whitespace characters matches, with a one-character
whitespace title). -/
def headerMatch (line : Str) : Option (Nat × Str) :=
  let h := (line.takeWhile (· == '#')).length
  if 1 ≤ h ∧ h ≤ 6 then
    let after := line.drop h
    let w := (after.takeWhile isWs).length
    let rest := after.drop w
    if w = 0 then none
    else if rest ≠ [] then some (h, rest)
    else if 2 ≤ w then some (h, after.drop (w - 1))
    else none
  else none

/-- One iteration of the `for line in lines` loop of
`_parse_markdown_to_sections`: on a header line, emit the current section
if its stripped content is non-empty (note the emitted `level=1` is the
literal `1` of the source, not the stored header level) and start a fresh
section; otherwise accumulate the line (plus `'\n'`) unless it is blank. -/
def processLine (st : List PaperSection × CurSection) (line : Str) :
    List PaperSection × CurSection :=
  match headerMatch line with
  | some (h, t) =>
    let secs :=
      if pstrip st.2.content ≠ [] then
        st.1 ++ [⟨st.2.title, pstrip st.2.content, 1⟩]
      else st.1
    (secs, ⟨pstrip t, [], some h⟩)
  | none =>
    if pstrip line ≠ [] then
      (st.1, { st.2 with content := st.2.content ++ line ++ ['\n'] })
    else st

/-- The initial `current_section = {"title": "Content", "content": ""}`. -/
def initialCur : CurSection := ⟨"Content".data, [], none⟩

/-- `DeepSeekParser._parse_markdown_to_sections`: split into lines, fold
the loop body, then emit the final section (with
`current_section.get("level", 1)`) if its stripped content is non-empty. -/
def parseMarkdownToSections (markdownText : Str) : List PaperSection :=
  let st := (splitNl markdownText).foldl processLine ([], initialCur)
  if pstrip st.2.content ≠ [] then
    st.1 ++ [⟨st.2.title, pstrip st.2.content, st.2.level?.getD 1⟩]
  else st.1

example : parseMarkdownToSections "## A\nx\n# B\ny".data =
    [⟨"A".data, "x".data, 1⟩, ⟨"B".data, "y".data, 1⟩] := by decide

example : parseMarkdownToSections "a\n\nb".data =
    [⟨"Content".data, "a\nb".data, 1⟩] := by decide

example : headerMatch "#  ".data = some (1, " ".data) := by decide

example : headerMatch "####### x".data = none := by decide

/-! ## Lemmas about the string model -/

theorem splitNl_ne_nil (s : Str) : splitNl s ≠ [] := by
  cases s with
  | nil => simp [splitNl]
  | cons c cs =>
    simp only [splitNl]
    split
    · simp
    · cases h : splitNl cs <;> simp

theorem splitNl_dest (s : Str) : ∃ hd tl, splitNl s = hd :: tl := by
  rcases h : splitNl s with _ | ⟨x, y⟩
  · exact absurd h (splitNl_ne_nil s)
  · exact ⟨x, y, rfl⟩

theorem splitNl_cons_nl (s : Str) : splitNl ('\n' :: s) = [] :: splitNl s := by
  simp [splitNl]

theorem splitNl_cons_ne {c : Char} (hc : ¬c = '\n') (s : Str) {hd : Str} {tl : List Str}
    (h : splitNl s = hd :: tl) : splitNl (c :: s) = (c :: hd) :: tl := by
  simp only [splitNl, if_neg hc, h]

theorem mem_splitNl_no_nl {s l : Str} (hl : l ∈ splitNl s) {c : Char} (hc : c ∈ l) :
    c ∈ s ∧ c ≠ '\n' := by
  induction s generalizing l with
  | nil =>
    simp [splitNl] at hl
    subst hl
    simp at hc
  | cons a as ih =>
    obtain ⟨hd, tl, hsp⟩ := splitNl_dest as
    by_cases ha : a = '\n'
    · subst ha
      rw [splitNl_cons_nl, List.mem_cons] at hl
      rcases hl with rfl | h
      · simp at hc
      · rcases ih h hc with ⟨h1, h2⟩
        exact ⟨List.mem_cons_of_mem _ h1, h2⟩
    · rw [splitNl_cons_ne ha as hsp, List.mem_cons] at hl
      rcases hl with rfl | h
      · rcases List.mem_cons.mp hc with rfl | hc2
        · exact ⟨List.mem_cons_self _ _, ha⟩
        · rcases ih (by rw [hsp]; exact List.mem_cons_self hd tl) hc2 with ⟨h1, h2⟩
          exact ⟨List.mem_cons_of_mem _ h1, h2⟩
      · rcases ih (by rw [hsp]; exact List.mem_cons_of_mem hd h) hc with ⟨h1, h2⟩
        exact ⟨List.mem_cons_of_mem _ h1, h2⟩

theorem splitNl_of_no_nl {l : Str} (h : '\n' ∉ l) : splitNl l = [l] := by
  induction l with
  | nil => rfl
  | cons c cs ih =>
    have hc : ¬c = '\n' := fun hcc => h (List.mem_cons.mpr (Or.inl hcc.symm))
    have hcs : '\n' ∉ cs := fun hm => h (List.mem_cons_of_mem _ hm)
    exact splitNl_cons_ne hc cs (ih hcs)

theorem splitNl_append_nl (a b : Str) :
    splitNl (a ++ '\n' :: b) = splitNl a ++ splitNl b := by
  induction a with
  | nil => simp [splitNl, splitNl_cons_nl]
  | cons c cs ih =>
    by_cases hc : c = '\n'
    · subst hc
      rw [List.cons_append, splitNl_cons_nl, ih, splitNl_cons_nl, List.cons_append]
    · obtain ⟨hd, tl, h⟩ := splitNl_dest cs
      have h2 : splitNl (cs ++ '\n' :: b) = hd :: (tl ++ splitNl b) := by
        rw [ih, h, List.cons_append]
      rw [List.cons_append, splitNl_cons_ne hc _ h2, splitNl_cons_ne hc _ h,
        List.cons_append]

theorem splitNl_append_no_nl {a : Str} (ha : '\n' ∉ a) (b : Str) {hd : Str}
    {tl : List Str} (hb : splitNl b = hd :: tl) :
    splitNl (a ++ b) = (a ++ hd) :: tl := by
  induction a with
  | nil => simpa using hb
  | cons c cs ih =>
    have hc : ¬c = '\n' := fun hcc => ha (List.mem_cons.mpr (Or.inl hcc.symm))
    have hcs : '\n' ∉ cs := fun hm => ha (List.mem_cons_of_mem _ hm)
    rw [List.cons_append, splitNl_cons_ne hc _ (ih hcs), List.cons_append]

theorem joinSep_nl_splitNl (s : Str) : joinSep ['\n'] (splitNl s) = s := by
  induction s with
  | nil => rfl
  | cons c cs ih =>
    obtain ⟨hd, tl, h⟩ := splitNl_dest cs
    rw [h] at ih
    by_cases hc : c = '\n'
    · subst hc
      rw [splitNl_cons_nl, h]
      simpa [joinSep] using ih
    · rw [splitNl_cons_ne hc cs h]
      cases tl with
      | nil =>
        simp only [joinSep] at ih ⊢
        rw [ih]
      | cons x xs =>
        simp only [joinSep, List.cons_append] at ih ⊢
        rw [ih]

theorem lstrip_eq_nil_iff {s : Str} : lstrip s = [] ↔ ∀ c ∈ s, isWs c :=
  List.dropWhile_eq_nil_iff

theorem rstrip_eq_nil_iff {s : Str} : rstrip s = [] ↔ ∀ c ∈ s, isWs c := by
  simp [rstrip, List.dropWhile_eq_nil_iff]

theorem lstrip_append_ws {a : Str} (h : ∀ c ∈ a, isWs c) (b : Str) :
    lstrip (a ++ b) = lstrip b := by
  unfold lstrip
  rw [List.dropWhile_append, if_pos]
  rw [List.isEmpty_iff, List.dropWhile_eq_nil_iff]
  exact h

theorem lstrip_append_of_ex {a : Str} (h : ∃ c ∈ a, isWs c = false) (b : Str) :
    lstrip (a ++ b) = lstrip a ++ b := by
  unfold lstrip
  rw [List.dropWhile_append, if_neg]
  rw [List.isEmpty_iff, List.dropWhile_eq_nil_iff]
  intro hall
  obtain ⟨c, hc, hw⟩ := h
  rw [hall c hc] at hw
  exact Bool.true_eq_false.mp hw

theorem rstrip_append_ws {b : Str} (h : ∀ c ∈ b, isWs c) (a : Str) :
    rstrip (a ++ b) = rstrip a := by
  unfold rstrip
  rw [List.reverse_append, List.dropWhile_append, if_pos]
  rw [List.isEmpty_iff, List.dropWhile_eq_nil_iff]
  intro c hc
  exact h c (List.mem_reverse.mp hc)

theorem rstrip_append_of_ex {b : Str} (h : ∃ c ∈ b, isWs c = false) (a : Str) :
    rstrip (a ++ b) = a ++ rstrip b := by
  unfold rstrip
  rw [List.reverse_append, List.dropWhile_append, if_neg, List.reverse_append,
    List.reverse_reverse]
  rw [List.isEmpty_iff, List.dropWhile_eq_nil_iff]
  intro hall
  obtain ⟨c, hc, hw⟩ := h
  rw [hall c (List.mem_reverse.mpr hc)] at hw
  exact Bool.true_eq_false.mp hw

theorem lstrip_idem (s : Str) : lstrip (lstrip s) = lstrip s :=
  List.dropWhile_idempotent isWs s

theorem rstrip_idem (s : Str) : rstrip (rstrip s) = rstrip s := by
  simp [rstrip, List.dropWhile_idempotent]

theorem lstrip_cons_not_ws {c : Char} (hw : isWs c = false) (t : Str) :
    lstrip (c :: t) = c :: t := by
  simp [lstrip, List.dropWhile_cons, hw]

theorem rstrip_cons_not_ws {c : Char} (hw : isWs c = false) (t : Str) :
    rstrip (c :: t) = c :: rstrip t := by
  unfold rstrip
  rw [show (c :: t).reverse = t.reverse ++ [c] from by simp, List.dropWhile_append]
  by_cases hnil : (t.reverse.dropWhile isWs).isEmpty = true
  · rw [if_pos hnil, List.isEmpty_iff.mp hnil]
    simp [List.dropWhile_cons, hw]
  · rw [if_neg hnil]
    simp

theorem mem_lstrip_of_not_ws {s : Str} {c : Char} (hc : c ∈ s) (hw : isWs c = false) :
    c ∈ lstrip s := by
  have hsplit := List.takeWhile_append_dropWhile isWs s
  rw [← hsplit] at hc
  rcases List.mem_append.mp hc with h | h
  · have := List.mem_takeWhile_imp h
    rw [this] at hw
    exact absurd hw (by simp)
  · exact h

theorem dropWhile_head_false {p : Char → Bool} :
    ∀ {l : Str} {h : Char} {tl : Str}, l.dropWhile p = h :: tl → p h = false := by
  intro l
  induction l with
  | nil => intro h tl hh; simp at hh
  | cons a as ih =>
    intro h tl hh
    rw [List.dropWhile_cons] at hh
    by_cases hp : p a
    · rw [if_pos hp] at hh
      exact ih hh
    · rw [if_neg hp] at hh
      cases hh
      cases hpa : p a
      · rfl
      · exact absurd hpa hp

theorem lstrip_rstrip_comm (s : Str) : lstrip (rstrip s) = rstrip (lstrip s) := by
  by_cases hall : ∀ c ∈ s, isWs c
  · rw [rstrip_eq_nil_iff.mpr hall, lstrip_eq_nil_iff.mpr hall]
    rfl
  · push_neg at hall
    obtain ⟨c0, hc0, hw0⟩ := hall
    have hw0' : isWs c0 = false := by
      cases h : isWs c0
      · rfl
      · exact absurd h hw0
    have hsplit := List.takeWhile_append_dropWhile isWs s
    have htws : ∀ c ∈ s.takeWhile isWs, isWs c := fun c hc => List.mem_takeWhile_imp hc
    obtain ⟨h, tl, hd⟩ : ∃ h tl, s.dropWhile isWs = h :: tl := by
      rcases hdd : s.dropWhile isWs with _ | ⟨x, y⟩
      · exfalso
        have := List.dropWhile_eq_nil_iff.mp hdd c0 hc0
        rw [this] at hw0'
        exact Bool.true_eq_false.mp hw0'
      · exact ⟨x, y, rfl⟩
    have hh : isWs h = false := dropWhile_head_false hd
    have hex : ∃ c ∈ s.dropWhile isWs, isWs c = false := ⟨h, by rw [hd]; simp, hh⟩
    calc lstrip (rstrip s)
        = lstrip (rstrip (s.takeWhile isWs ++ s.dropWhile isWs)) := by rw [hsplit]
      _ = lstrip (s.takeWhile isWs ++ rstrip (s.dropWhile isWs)) := by
          rw [rstrip_append_of_ex hex]
      _ = lstrip (rstrip (s.dropWhile isWs)) := lstrip_append_ws htws _
      _ = rstrip (s.dropWhile isWs) := by
          rw [hd, rstrip_cons_not_ws hh, lstrip_cons_not_ws hh]
      _ = rstrip (lstrip s) := rfl

theorem pstrip_eq_lstrip_rstrip (s : Str) : pstrip s = lstrip (rstrip s) :=
  (lstrip_rstrip_comm s).symm

theorem pstrip_lstrip (s : Str) : pstrip (lstrip s) = pstrip s := by
  unfold pstrip
  rw [lstrip_idem]

theorem pstrip_rstrip (s : Str) : pstrip (rstrip s) = pstrip s := by
  rw [pstrip_eq_lstrip_rstrip, rstrip_idem, ← pstrip_eq_lstrip_rstrip]

theorem pstrip_idem (s : Str) : pstrip (pstrip s) = pstrip s :=
  calc pstrip (pstrip s) = pstrip (rstrip (lstrip s)) := rfl
    _ = pstrip (lstrip s) := pstrip_rstrip _
    _ = pstrip s := pstrip_lstrip _

theorem pstrip_eq_nil_iff {s : Str} : pstrip s = [] ↔ ∀ c ∈ s, isWs c := by
  unfold pstrip
  rw [rstrip_eq_nil_iff]
  constructor
  · intro hl c hc
    by_cases hw : isWs c
    · exact hw
    · have hw' : isWs c = false := by
        cases h : isWs c
        · rfl
        · exact absurd h hw
      have := hl c (mem_lstrip_of_not_ws hc hw')
      rw [this] at hw'
      exact absurd hw' (by simp)
  · intro hall c hc
    have : lstrip s = [] := lstrip_eq_nil_iff.mpr hall
    rw [this] at hc
    simp at hc

theorem pstrip_ws_append {a : Str} (h : ∀ c ∈ a, isWs c) (b : Str) :
    pstrip (a ++ b) = pstrip b := by
  unfold pstrip
  rw [lstrip_append_ws h]

theorem pstrip_append_ws {b : Str} (h : ∀ c ∈ b, isWs c) (a : Str) :
    pstrip (a ++ b) = pstrip a := by
  rw [pstrip_eq_lstrip_rstrip, rstrip_append_ws h, ← pstrip_eq_lstrip_rstrip]

theorem pstrip_append_nl (s : Str) : pstrip (s ++ ['\n']) = pstrip s :=
  pstrip_append_ws (by intro c hc; simp at hc; rw [hc]; rfl) s

theorem joinNlTerm_nil : joinNlTerm [] = [] := rfl

theorem joinNlTerm_cons (l : Str) (ls : List Str) :
    joinNlTerm (l :: ls) = l ++ '\n' :: joinNlTerm ls := by
  simp [joinNlTerm]

theorem joinNlTerm_append (a b : List Str) :
    joinNlTerm (a ++ b) = joinNlTerm a ++ joinNlTerm b := by
  induction a with
  | nil => rfl
  | cons x xs ih => simp [joinNlTerm_cons, ih]

theorem joinNlTerm_eq_joinSep {ls : List Str} (h : ls ≠ []) :
    joinNlTerm ls = joinSep ['\n'] ls ++ ['\n'] := by
  induction ls with
  | nil => exact absurd rfl h
  | cons x xs ih =>
    cases xs with
    | nil => simp [joinNlTerm_cons, joinNlTerm_nil, joinSep]
    | cons y ys =>
      rw [joinNlTerm_cons, ih (by simp)]
      simp [joinSep]

theorem mem_of_mem_lstrip {s : Str} {c : Char} (h : c ∈ lstrip s) : c ∈ s := by
  rw [← List.takeWhile_append_dropWhile isWs s]
  exact List.mem_append.mpr (Or.inr h)

theorem mem_of_mem_rstrip {s : Str} {c : Char} (h : c ∈ rstrip s) : c ∈ s := by
  unfold rstrip at h
  rw [List.mem_reverse] at h
  have h2 : c ∈ s.reverse := by
    rw [← List.takeWhile_append_dropWhile isWs s.reverse]
    exact List.mem_append.mpr (Or.inr h)
  exact List.mem_reverse.mp h2

theorem mem_of_mem_pstrip {s : Str} {c : Char} (h : c ∈ pstrip s) : c ∈ s :=
  mem_of_mem_lstrip (mem_of_mem_rstrip h)

theorem mem_joinSep_of_mem {sep : Str} {ls : List Str} {l : Str} {c : Char}
    (hl : l ∈ ls) (hc : c ∈ l) : c ∈ joinSep sep ls := by
  induction ls with
  | nil => simp at hl
  | cons x xs ih =>
    cases xs with
    | nil =>
      simp at hl
      subst hl
      exact hc
    | cons y ys =>
      rcases List.mem_cons.mp hl with rfl | h
      · simp [joinSep]
        exact Or.inl hc
      · simp [joinSep]
        exact Or.inr (Or.inr (ih h))

theorem pstrip_ne_nil_iff {s : Str} : pstrip s ≠ [] ↔ ∃ c ∈ s, isWs c = false := by
  rw [ne_eq, pstrip_eq_nil_iff]
  push_neg
  simp only [Bool.not_eq_true]

theorem rstrip_eq_ws_prefix_append_pstrip {s : Str} (h : ∃ c ∈ s, isWs c = false) :
    rstrip s = s.takeWhile isWs ++ pstrip s := by
  obtain ⟨hd, tl, hdd⟩ : ∃ hd tl, s.dropWhile isWs = hd :: tl := by
    rcases hc : s.dropWhile isWs with _ | ⟨x, y⟩
    · exfalso
      obtain ⟨c, hcs, hw⟩ := h
      rw [List.dropWhile_eq_nil_iff.mp hc c hcs] at hw
      exact Bool.true_eq_false.mp hw
    · exact ⟨x, y, rfl⟩
  have hh : isWs hd = false := dropWhile_head_false hdd
  have hex : ∃ c ∈ s.dropWhile isWs, isWs c = false := ⟨hd, by rw [hdd]; simp, hh⟩
  conv => lhs; rw [← List.takeWhile_append_dropWhile isWs s]
  rw [rstrip_append_of_ex hex]
  rfl

theorem splitNl_map_pstrip_ws_prefix {a b : Str} (ha : ∀ c ∈ a, isWs c)
    (hnl : '\n' ∉ a) : (splitNl (a ++ b)).map pstrip = (splitNl b).map pstrip := by
  obtain ⟨hd, tl, h⟩ := splitNl_dest b
  rw [splitNl_append_no_nl hnl _ h, h, List.map_cons, List.map_cons,
    pstrip_ws_append ha]

theorem mem_of_mem_takeWhile {p : Char → Bool} {l : Str} {c : Char}
    (h : c ∈ l.takeWhile p) : c ∈ l := by
  rw [← List.takeWhile_append_dropWhile p l]
  exact List.mem_append.mpr (Or.inl h)

theorem all_of_takeWhile_length {p : Char → Bool} {m : Str}
    (h : (m.takeWhile p).length = m.length) : ∀ c ∈ m, p c := by
  have hsplit := List.takeWhile_append_dropWhile p m
  have hlen := congrArg List.length hsplit
  rw [List.length_append] at hlen
  have hdrop : (m.dropWhile p).length = 0 := by omega
  exact List.dropWhile_eq_nil_iff.mp (List.length_eq_zero.mp hdrop)

/-- Stripping the newline-joined nonblank lines, then re-splitting, changes
each line only by whitespace at the two outer edges: line-wise, the
stripped lines are unchanged. -/
theorem mapStrip_joinSep {ls : List Str} (hne : ls ≠ [])
    (hnb : ∀ l ∈ ls, pstrip l ≠ []) (hnl : ∀ l ∈ ls, '\n' ∉ l) :
    (splitNl (pstrip (joinSep ['\n'] ls))).map pstrip = ls.map pstrip := by
  induction ls with
  | nil => exact absurd rfl hne
  | cons l ms ih =>
    cases ms with
    | nil =>
      have hn : '\n' ∉ pstrip l :=
        fun h => hnl l (List.mem_cons_self _ _) (mem_of_mem_pstrip h)
      rw [show joinSep ['\n'] [l] = l from rfl, splitNl_of_no_nl hn]
      simp [pstrip_idem]
    | cons m ms' =>
      have hlnb : pstrip l ≠ [] := hnb l (List.mem_cons_self _ _)
      have hlex : ∃ c ∈ l, isWs c = false := pstrip_ne_nil_iff.mp hlnb
      have hmnb : pstrip m ≠ [] := hnb m (by simp)
      have hmex : ∃ c ∈ m, isWs c = false := pstrip_ne_nil_iff.mp hmnb
      obtain ⟨t, hJt⟩ : ∃ t, joinSep ['\n'] (m :: ms') = m ++ t := by
        cases ms' with
        | nil => exact ⟨[], by simp [joinSep]⟩
        | cons y ys => exact ⟨'\n' :: joinSep ['\n'] (y :: ys), by simp [joinSep]⟩
      have hJex : ∃ c ∈ joinSep ['\n'] (m :: ms'), isWs c = false := by
        obtain ⟨c, hc, hw⟩ := hmex
        exact ⟨c, by rw [hJt]; exact List.mem_append.mpr (Or.inl hc), hw⟩
      have hstep : joinSep ['\n'] (l :: m :: ms') =
          l ++ '\n' :: joinSep ['\n'] (m :: ms') := by
        simp [joinSep]
      have hstrip : pstrip (l ++ '\n' :: joinSep ['\n'] (m :: ms')) =
          lstrip l ++ '\n' :: rstrip (joinSep ['\n'] (m :: ms')) := by
        unfold pstrip
        rw [lstrip_append_of_ex hlex]
        rw [show lstrip l ++ '\n' :: joinSep ['\n'] (m :: ms') =
          lstrip l ++ (['\n'] ++ joinSep ['\n'] (m :: ms')) from by simp]
        rw [rstrip_append_of_ex (by
          obtain ⟨c, hc, hw⟩ := hJex
          exact ⟨c, List.mem_append.mpr (Or.inr hc), hw⟩)]
        rw [rstrip_append_of_ex hJex]
        simp
      rw [hstep, hstrip]
      have hnll : '\n' ∉ lstrip l := fun h => hnl l (by simp) (mem_of_mem_lstrip h)
      rw [splitNl_append_nl, splitNl_of_no_nl hnll]
      have hbridge : (splitNl (rstrip (joinSep ['\n'] (m :: ms')))).map pstrip =
          (splitNl (pstrip (joinSep ['\n'] (m :: ms')))).map pstrip := by
        rw [rstrip_eq_ws_prefix_append_pstrip hJex]
        apply splitNl_map_pstrip_ws_prefix
        · intro c hc
          exact List.mem_takeWhile_imp hc
        · intro hmem
          rw [hJt, List.takeWhile_append] at hmem
          by_cases hlen : (m.takeWhile isWs).length = m.length
          · exact hmnb (pstrip_eq_nil_iff.mpr (all_of_takeWhile_length hlen))
          · rw [if_neg hlen] at hmem
            exact hnl m (by simp) (mem_of_mem_takeWhile hmem)
      have ihr := ih (by simp) (fun x hx => hnb x (List.mem_cons_of_mem _ hx))
        (fun x hx => hnl x (List.mem_cons_of_mem _ hx))
      rw [List.singleton_append, List.map_cons, hbridge, ihr, List.map_cons,
        pstrip_lstrip]
      simp [List.map_cons]

/-- Variant of `mapStrip_joinSep` for the accumulator shape
(lines each terminated by `'\n'`). -/
theorem mapStrip_joinNlTerm {ls : List Str} (hne : ls ≠ [])
    (hnb : ∀ l ∈ ls, pstrip l ≠ []) (hnl : ∀ l ∈ ls, '\n' ∉ l) :
    (splitNl (pstrip (joinNlTerm ls))).map pstrip = ls.map pstrip := by
  rw [joinNlTerm_eq_joinSep hne, pstrip_append_nl]
  exact mapStrip_joinSep hne hnb hnl

/-- Re-accumulating the split lines of a string, then stripping, gives the
original string back stripped. -/
theorem pstrip_joinNlTerm_splitNl (c : Str) :
    pstrip (joinNlTerm (splitNl c)) = pstrip c := by
  rw [joinNlTerm_eq_joinSep (splitNl_ne_nil c), pstrip_append_nl, joinSep_nl_splitNl]

/-! ## Header matching and loop invariants -/

theorem headerMatch_some_inv {line : Str} {h : Nat} {t : Str}
    (hm : headerMatch line = some (h, t)) :
    (1 ≤ h ∧ h ≤ 6) ∧ ∀ c ∈ t, c ∈ line := by
  simp only [headerMatch] at hm
  split at hm
  next hb =>
    split at hm
    next => exact absurd hm (by simp)
    next h0 =>
      split at hm
      next hr =>
        injection Option.some.inj hm with h1 h2
        subst h1
        subst h2
        exact ⟨hb, fun c hc => List.mem_of_mem_drop (List.mem_of_mem_drop hc)⟩
      next hr =>
        split at hm
        next h2w =>
          injection Option.some.inj hm with h1 h2
          subst h1
          subst h2
          exact ⟨hb, fun c hc => List.mem_of_mem_drop (List.mem_of_mem_drop hc)⟩
        next => exact absurd hm (by simp)
  next hb => exact absurd hm (by simp)

theorem headerMatch_none_of_seven {line : Str}
    (h7 : 7 ≤ (line.takeWhile (· == '#')).length) : headerMatch line = none := by
  simp only [headerMatch]
  rw [if_neg]
  rintro ⟨-, h6⟩
  omega

/-- The accumulator `current_section["content"]` is always a concatenation
of newline-terminated, non-blank, newline-free lines. -/
def GoodContent (c : Str) : Prop :=
  ∃ cls : List Str, c = joinNlTerm cls ∧ (∀ l ∈ cls, pstrip l ≠ []) ∧
    ∀ l ∈ cls, '\n' ∉ l

theorem goodContent_nil : GoodContent [] := ⟨[], rfl, by simp, by simp⟩

theorem emitted_content_lines {cls : List Str} (hnb : ∀ l ∈ cls, pstrip l ≠ [])
    (hnl : ∀ l ∈ cls, '\n' ∉ l) (hne : pstrip (joinNlTerm cls) ≠ []) :
    ∀ l ∈ splitNl (pstrip (joinNlTerm cls)), pstrip l ≠ [] := by
  intro l hl
  have hclsne : cls ≠ [] := by
    rintro rfl
    exact hne rfl
  have hmap := mapStrip_joinNlTerm hclsne hnb hnl
  have hmem : pstrip l ∈ (splitNl (pstrip (joinNlTerm cls))).map pstrip :=
    List.mem_map_of_mem _ hl
  rw [hmap] at hmem
  obtain ⟨x, hx, hxe⟩ := List.mem_map.mp hmem
  rw [← hxe]
  exact hnb x hx

/-- Invariant of the segmenter loop state: every emitted section has
stripped, non-empty content with non-blank lines, a stripped newline-free
title, and a level in `[1,6]`; the current section's accumulator is a
concatenation of newline-terminated non-blank lines, its title is stripped
and newline-free, and its stored level (if any) is in `[1,6]`. -/
structure SegInv (st : List PaperSection × CurSection) : Prop where
  secTitle : ∀ s ∈ st.1, pstrip s.title = s.title ∧ '\n' ∉ s.title
  secContent : ∀ s ∈ st.1, pstrip s.content = s.content ∧ s.content ≠ []
  secLines : ∀ s ∈ st.1, ∀ l ∈ splitNl s.content, pstrip l ≠ []
  secLevel : ∀ s ∈ st.1, 1 ≤ s.level ∧ s.level ≤ 6
  curTitle : pstrip st.2.title = st.2.title ∧ '\n' ∉ st.2.title
  curContent : GoodContent st.2.content
  curLevel : ∀ h, st.2.level? = some h → 1 ≤ h ∧ h ≤ 6

theorem segInv_initial : SegInv ([], initialCur) := by
  refine ⟨by simp, by simp, by simp, by simp, ⟨by decide, by decide⟩,
    goodContent_nil, ?_⟩
  intro h hh
  simp [initialCur] at hh

theorem segInv_processLine {st : List PaperSection × CurSection} (hst : SegInv st)
    {line : Str} (hline : '\n' ∉ line) : SegInv (processLine st line) := by
  obtain ⟨cls, hcls, hclsnb, hclsnl⟩ := hst.curContent
  rcases hmm : headerMatch line with _ | ⟨hh, tt⟩
  · by_cases hb : pstrip line = []
    · have hstep : processLine st line = st := by
        simp [processLine, hmm, hb]
      rw [hstep]
      exact hst
    · have hstep : processLine st line =
          (st.1, { st.2 with content := st.2.content ++ line ++ ['\n'] }) := by
        simp [processLine, hmm, hb]
      rw [hstep]
      refine ⟨hst.secTitle, hst.secContent, hst.secLines, hst.secLevel,
        hst.curTitle, ?_, hst.curLevel⟩
      refine ⟨cls ++ [line], ?_, ?_, ?_⟩
      · rw [joinNlTerm_append, ← hcls, joinNlTerm_cons, joinNlTerm_nil]
        simp
      · intro l hl
        rcases List.mem_append.mp hl with h | h
        · exact hclsnb l h
        · simp at h
          subst h
          exact hb
      · intro l hl
        rcases List.mem_append.mp hl with h | h
        · exact hclsnl l h
        · simp at h
          subst h
          exact hline
  · obtain ⟨⟨hh1, hh6⟩, hsub⟩ := headerMatch_some_inv hmm
    have hstep : processLine st line =
        ((if pstrip st.2.content ≠ [] then
            st.1 ++ [⟨st.2.title, pstrip st.2.content, 1⟩] else st.1),
          ⟨pstrip tt, [], some hh⟩) := by
      simp [processLine, hmm]
    rw [hstep]
    have hnewTitle : pstrip (pstrip tt) = pstrip tt ∧ '\n' ∉ pstrip tt := by
      refine ⟨pstrip_idem tt, fun hmem => hline (hsub '\n' (mem_of_mem_pstrip hmem))⟩
    by_cases hemit : pstrip st.2.content = []
    · rw [if_neg (by simpa using hemit)]
      refine ⟨hst.secTitle, hst.secContent, hst.secLines, hst.secLevel,
        hnewTitle, goodContent_nil, ?_⟩
      intro k hk
      injection hk with hk
      subst hk
      exact ⟨hh1, hh6⟩
    · rw [if_pos (by simpa using hemit)]
      refine ⟨?_, ?_, ?_, ?_, hnewTitle, goodContent_nil, ?_⟩
      · intro s hs
        rcases List.mem_append.mp hs with h | h
        · exact hst.secTitle s h
        · simp at h
          subst h
          exact hst.curTitle
      · intro s hs
        rcases List.mem_append.mp hs with h | h
        · exact hst.secContent s h
        · simp at h
          subst h
          exact ⟨pstrip_idem _, hemit⟩
      · intro s hs
        rcases List.mem_append.mp hs with h | h
        · exact hst.secLines s h
        · simp at h
          subst h
          rw [hcls] at hemit ⊢
          exact emitted_content_lines hclsnb hclsnl hemit
      · intro s hs
        rcases List.mem_append.mp hs with h | h
        · exact hst.secLevel s h
        · simp at h
          subst h
          exact ⟨Nat.le_refl 1, Nat.le_of_lt (by norm_num)⟩
      · intro k hk
        injection hk with hk
        subst hk
        exact ⟨hh1, hh6⟩

theorem segInv_foldl {lines : List Str} (hlines : ∀ l ∈ lines, '\n' ∉ l)
    {st : List PaperSection × CurSection} (hst : SegInv st) :
    SegInv (lines.foldl processLine st) := by
  induction lines generalizing st with
  | nil => exact hst
  | cons x xs ih =>
    rw [List.foldl_cons]
    exact ih (fun l hl => hlines l (List.mem_cons_of_mem _ hl))
      (segInv_processLine hst (hlines x (List.mem_cons_self _ _)))

theorem parse_sections_inv {text : Str} {s : PaperSection}
    (hs : s ∈ parseMarkdownToSections text) :
    pstrip s.title = s.title ∧ '\n' ∉ s.title ∧ pstrip s.content = s.content ∧
      s.content ≠ [] ∧ (∀ l ∈ splitNl s.content, pstrip l ≠ []) ∧
      1 ≤ s.level ∧ s.level ≤ 6 := by
  have hlines : ∀ l ∈ splitNl text, '\n' ∉ l :=
    fun l hl hn => (mem_splitNl_no_nl hl hn).2 rfl
  have hinv := segInv_foldl hlines segInv_initial
  simp only [parseMarkdownToSections] at hs
  set st := (splitNl text).foldl processLine ([], initialCur) with hstdef
  obtain ⟨cls, hcls, hclsnb, hclsnl⟩ := hinv.curContent
  by_cases hemit : pstrip st.2.content = []
  · rw [if_neg (by simpa using hemit)] at hs
    obtain ⟨ht1, ht2⟩ := hinv.secTitle s hs
    obtain ⟨hc1, hc2⟩ := hinv.secContent s hs
    obtain ⟨hl1, hl2⟩ := hinv.secLevel s hs
    exact ⟨ht1, ht2, hc1, hc2, hinv.secLines s hs, hl1, hl2⟩
  · rw [if_pos (by simpa using hemit)] at hs
    rcases List.mem_append.mp hs with h | h
    · obtain ⟨ht1, ht2⟩ := hinv.secTitle s h
      obtain ⟨hc1, hc2⟩ := hinv.secContent s h
      obtain ⟨hl1, hl2⟩ := hinv.secLevel s h
      exact ⟨ht1, ht2, hc1, hc2, hinv.secLines s h, hl1, hl2⟩
    · simp at h
      subst h
      refine ⟨hinv.curTitle.1, hinv.curTitle.2, pstrip_idem _, hemit, ?_, ?_, ?_⟩
      · rw [hcls] at hemit ⊢
        exact emitted_content_lines hclsnb hclsnl hemit
      · rcases hlv : st.2.level? with _ | k
        · simp [hlv]
        · simp [hlv]
          exact (hinv.curLevel k hlv).1
      · rcases hlv : st.2.level? with _ | k
        · simp [hlv]
        · simp [hlv]
          exact (hinv.curLevel k hlv).2

theorem isEmpty_false_of_ne {l : Str} (h : l ≠ []) : l.isEmpty = false := by
  cases hl : l.isEmpty
  · rfl
  · exact absurd (List.isEmpty_iff.mp hl) h

theorem foldl_no_header {lines : List Str}
    (hl : ∀ l ∈ lines, headerMatch l = none) (secs : List PaperSection)
    (cur : CurSection) :
    lines.foldl processLine (secs, cur) =
      (secs, { cur with content :=
        cur.content ++ joinNlTerm (lines.filter (fun l => !(pstrip l).isEmpty)) }) := by
  induction lines generalizing cur with
  | nil => simp [joinNlTerm]
  | cons x xs ih =>
    rw [List.foldl_cons]
    have hx := hl x (List.mem_cons_self _ _)
    by_cases hb : pstrip x = []
    · have hstep : processLine (secs, cur) x = (secs, cur) := by
        simp [processLine, hx, hb]
      rw [hstep, ih (fun l h => hl l (List.mem_cons_of_mem _ h))]
      have hfil : (x :: xs).filter (fun l => !(pstrip l).isEmpty) =
          xs.filter (fun l => !(pstrip l).isEmpty) := by
        simp [List.filter_cons, hb]
      rw [hfil]
    · have hstep : processLine (secs, cur) x =
          (secs, { cur with content := cur.content ++ x ++ ['\n'] }) := by
        simp [processLine, hx, hb]
      rw [hstep, ih (fun l h => hl l (List.mem_cons_of_mem _ h))]
      have hfil : (x :: xs).filter (fun l => !(pstrip l).isEmpty) =
          x :: xs.filter (fun l => !(pstrip l).isEmpty) := by
        simp [List.filter_cons, isEmpty_false_of_ne hb]
      rw [hfil, joinNlTerm_cons]
      simp [List.append_assoc]

theorem mem_joinSep_nl {ls : List Str} {c : Char} (hc : c ∈ joinSep ['\n'] ls) :
    c = '\n' ∨ ∃ l ∈ ls, c ∈ l := by
  induction ls with
  | nil => simp [joinSep] at hc
  | cons x xs ih =>
    cases xs with
    | nil =>
      simp only [joinSep] at hc
      exact Or.inr ⟨x, by simp, hc⟩
    | cons y ys =>
      simp only [joinSep, List.append_assoc, List.mem_append] at hc
      rcases hc with h | h
      · exact Or.inr ⟨x, by simp, h⟩
      · rcases h with h2 | h2
        · simp at h2
          exact Or.inl h2
        · rcases ih h2 with h3 | ⟨l, hl, hcl⟩
          · exact Or.inl h3
          · exact Or.inr ⟨l, List.mem_cons_of_mem _ hl, hcl⟩

theorem mem_joinNlTerm_of_mem {ls : List Str} {l : Str} {c : Char}
    (hl : l ∈ ls) (hc : c ∈ l) : c ∈ joinNlTerm ls := by
  induction ls with
  | nil => simp at hl
  | cons x xs ih =>
    rw [joinNlTerm_cons]
    rcases List.mem_cons.mp hl with rfl | h
    · exact List.mem_append.mpr (Or.inl hc)
    · exact List.mem_append.mpr (Or.inr (List.mem_cons_of_mem _ (ih h)))

theorem pstrip_joinNlTerm_filter_eq_nil_iff (text : Str) :
    pstrip (joinNlTerm ((splitNl text).filter (fun l => !(pstrip l).isEmpty))) = [] ↔
      pstrip text = [] := by
  constructor
  · intro h
    rcases hF : (splitNl text).filter (fun l => !(pstrip l).isEmpty) with _ | ⟨x, xs⟩
    · have hall : ∀ l ∈ splitNl text, pstrip l = [] := by
        intro l hl
        have := List.filter_eq_nil_iff.mp hF l hl
        simp at this
        exact this
      rw [pstrip_eq_nil_iff]
      intro c hc
      rw [← joinSep_nl_splitNl text] at hc
      rcases mem_joinSep_nl hc with rfl | ⟨l, hl, hcl⟩
      · rfl
      · exact pstrip_eq_nil_iff.mp (hall l hl) c hcl
    · exfalso
      have hxmem : x ∈ (splitNl text).filter (fun l => !(pstrip l).isEmpty) := by
        rw [hF]
        exact List.mem_cons_self _ _
      have hxnb : pstrip x ≠ [] := by
        have := List.of_mem_filter hxmem
        simp at this
        exact this
      obtain ⟨c, hc, hw⟩ := pstrip_ne_nil_iff.mp hxnb
      have hmem : c ∈ joinNlTerm ((splitNl text).filter (fun l => !(pstrip l).isEmpty)) :=
        mem_joinNlTerm_of_mem hxmem hc
      have := pstrip_eq_nil_iff.mp h c hmem
      rw [this] at hw
      exact Bool.true_eq_false.mp hw
  · intro h
    have hall : ∀ l ∈ splitNl text, pstrip l = [] := by
      intro l hl
      rw [pstrip_eq_nil_iff]
      intro c hc
      exact pstrip_eq_nil_iff.mp h c (mem_splitNl_no_nl hl hc).1
    have hF : (splitNl text).filter (fun l => !(pstrip l).isEmpty) = [] := by
      rw [List.filter_eq_nil_iff]
      intro l hl
      simp [hall l hl]
    rw [hF]
    rfl

/-- The title of every header line, in input order (the candidate
sections, emitted or not). -/
def headerTitles (lines : List Str) : List Str :=
  lines.filterMap (fun l => (headerMatch l).map (fun p => pstrip p.2))

theorem titles_sublist_foldl (lines : List Str) :
    ∀ (secs : List PaperSection) (cur : CurSection),
      List.Sublist
        ((lines.foldl processLine (secs, cur)).1.map PaperSection.title ++
          [(lines.foldl processLine (secs, cur)).2.title])
        ((secs.map PaperSection.title ++ [cur.title]) ++ headerTitles lines) := by
  induction lines with
  | nil =>
    intro secs cur
    simp [headerTitles]
  | cons x xs ih =>
    intro secs cur
    rw [List.foldl_cons]
    rcases hmm : headerMatch x with _ | ⟨hh, tt⟩
    · have hht : headerTitles (x :: xs) = headerTitles xs := by
        simp [headerTitles, List.filterMap_cons, hmm]
      rw [hht]
      by_cases hb : pstrip x = []
      · have hstep : processLine (secs, cur) x = (secs, cur) := by
          simp [processLine, hmm, hb]
        rw [hstep]
        exact ih secs cur
      · have hstep : processLine (secs, cur) x =
            (secs, { cur with content := cur.content ++ x ++ ['\n'] }) := by
          simp [processLine, hmm, hb]
        rw [hstep]
        exact ih secs { cur with content := cur.content ++ x ++ ['\n'] }
    · have hht : headerTitles (x :: xs) = pstrip tt :: headerTitles xs := by
        simp [headerTitles, List.filterMap_cons, hmm]
      rw [hht]
      by_cases hemit : pstrip cur.content = []
      · have hstep : processLine (secs, cur) x = (secs, ⟨pstrip tt, [], some hh⟩) := by
          simp [processLine, hmm, hemit]
        rw [hstep]
        refine (ih secs ⟨pstrip tt, [], some hh⟩).trans ?_
        rw [List.append_assoc, List.append_assoc]
        apply (List.append_sublist_append_left (secs.map PaperSection.title)).mpr
        simp only [List.singleton_append]
        exact List.sublist_cons_self cur.title (pstrip tt :: headerTitles xs)
      · have hstep : processLine (secs, cur) x =
            (secs ++ [⟨cur.title, pstrip cur.content, 1⟩], ⟨pstrip tt, [], some hh⟩) := by
          simp [processLine, hmm, hemit]
        rw [hstep]
        have hih := ih (secs ++ [⟨cur.title, pstrip cur.content, 1⟩]) ⟨pstrip tt, [], some hh⟩
        apply hih.trans
        simp only [List.map_append, List.map_cons, List.map_nil, List.append_assoc,
          List.singleton_append]
        exact List.Sublist.refl _

/-! ## Claim theorems: the section segmenter -/

/-- C2: at the input `"## A\nx\n# B\ny"` the segmenter emits the section
opened by the two-marker header `"## A"` with level `1`, not `2` — the
mid-loop emission of `_parse_markdown_to_sections` passes the literal
`level=1` instead of the stored header level, which is used only for the
final section.  (`headerMatch` itself reports depth 2 for that header
line.)  This evaluates the code at the failing input of the claim. -/
theorem c2_level_hardcoded_at_failing_input :
    parseMarkdownToSections "## A\nx\n# B\ny".data =
      [⟨"A".data, "x".data, 1⟩, ⟨"B".data, "y".data, 1⟩] ∧
    headerMatch "## A".data = some (2, "A".data) := by decide

/-- C6 (amended): on header-free text the segmenter yields no section when
the text is blank, and otherwise exactly one section with the fixed
default title `"Content"`, depth 1, and as content the trimmed
concatenation of the *non-blank* lines of the input (blank lines are
dropped by the accumulator, so the content is not in general the full
trimmed input). -/
theorem c6_no_header_segmentation (text : Str)
    (hnh : ∀ l ∈ splitNl text, headerMatch l = none) :
    parseMarkdownToSections text =
      if pstrip text = [] then []
      else
        [⟨"Content".data,
          pstrip (joinNlTerm ((splitNl text).filter (fun l => !(pstrip l).isEmpty))), 1⟩] := by
  simp only [parseMarkdownToSections]
  rw [foldl_no_header hnh [] initialCur]
  by_cases hpt : pstrip text = []
  · rw [if_pos hpt]
    have hJ := (pstrip_joinNlTerm_filter_eq_nil_iff text).mpr hpt
    simp [initialCur, hJ]
  · rw [if_neg hpt]
    have hJ : pstrip (joinNlTerm ((splitNl text).filter (fun l => !(pstrip l).isEmpty))) ≠ [] :=
      fun h => hpt ((pstrip_joinNlTerm_filter_eq_nil_iff text).mp h)
    simp [initialCur, hJ]

/-- Witness for C6's amended theorem at the concrete header-free input
`"a\n\nb"`. -/
theorem c6_no_header_segmentation_witness :
    parseMarkdownToSections "a\n\nb".data =
      if pstrip "a\n\nb".data = [] then []
      else
        [⟨"Content".data,
          pstrip (joinNlTerm (((splitNl "a\n\nb".data)).filter (fun l => !(pstrip l).isEmpty))), 1⟩] :=
  c6_no_header_segmentation "a\n\nb".data (by decide)

/-- C6 counterexample: `"a\n\nb"` has no header lines, yet the single
emitted section's content is `"a\nb"`, not the full trimmed input
`"a\n\nb"` — the claim's "content is the full trimmed input" fails because
the accumulator drops blank lines. -/
theorem c6_counterexample :
    (∀ l ∈ splitNl "a\n\nb".data, headerMatch l = none) ∧
    parseMarkdownToSections "a\n\nb".data ≠
      [⟨"Content".data, pstrip "a\n\nb".data, 1⟩] := by decide

/-- C8: the segmenter never emits a section whose content strips to the
empty string, and the emitted titles are, in order, a sublist of the
default title followed by the (stripped) header-line titles in input
order: emission order is header order. -/
theorem c8_nonblank_and_header_order (text : Str) :
    (∀ s ∈ parseMarkdownToSections text, pstrip s.content ≠ []) ∧
    List.Sublist ((parseMarkdownToSections text).map PaperSection.title)
      ("Content".data :: headerTitles (splitNl text)) := by
  constructor
  · intro s hs
    obtain ⟨-, -, hc1, hc2, -, -, -⟩ := parse_sections_inv hs
    rw [hc1]
    exact hc2
  · have h := titles_sublist_foldl (splitNl text) [] initialCur
    simp only [parseMarkdownToSections]
    set st := (splitNl text).foldl processLine ([], initialCur) with hst
    by_cases hemit : pstrip st.2.content = []
    · rw [if_neg (by simpa using hemit)]
      refine List.Sublist.trans ?_ (by simpa [initialCur] using h)
      exact List.sublist_append_left _ _
    · rw [if_pos (by simpa using hemit)]
      refine List.Sublist.trans ?_ (by simpa [initialCur] using h)
      rw [List.map_append]
      simp

/-- Witness for C8 at the concrete input `"## A\nx"`. -/
theorem c8_nonblank_and_header_order_witness :
    pstrip (⟨"A".data, "x".data, 2⟩ : PaperSection).content ≠ [] :=
  (c8_nonblank_and_header_order "## A\nx".data).1 ⟨"A".data, "x".data, 2⟩ (by decide)

/-- C10: a line starting with seven or more marker characters is not
matched as a header, and the loop accumulates it verbatim (suffixed by a
newline) into the current section's content. -/
theorem c10_seven_hashes_not_header (st : List PaperSection × CurSection) (line : Str)
    (h7 : 7 ≤ (line.takeWhile (· == '#')).length) :
    headerMatch line = none ∧
      processLine st line =
        (st.1, { st.2 with content := st.2.content ++ line ++ ['\n'] }) := by
  have hnone := headerMatch_none_of_seven h7
  have hnb : pstrip line ≠ [] := by
    apply pstrip_ne_nil_iff.mpr
    obtain ⟨c, hc⟩ : ∃ c, c ∈ line.takeWhile (· == '#') := by
      rcases htw : line.takeWhile (· == '#') with _ | ⟨y, ys⟩
      · rw [htw] at h7
        simp at h7
      · exact ⟨y, htw ▸ List.mem_cons_self y ys⟩
    have h1 : c = '#' := by simpa using List.mem_takeWhile_imp hc
    refine ⟨c, mem_of_mem_takeWhile hc, by rw [h1]; decide⟩
  exact ⟨hnone, by simp [processLine, hnone, hnb]⟩

/-- Witness for C10 at the concrete line `"####### x"`. -/
theorem c10_seven_hashes_not_header_witness :
    headerMatch "####### x".data = none ∧
      processLine ([], initialCur) "####### x".data =
        ([], { initialCur with content := initialCur.content ++ "####### x".data ++ ['\n'] }) :=
  c10_seven_hashes_not_header ([], initialCur) "####### x".data (by decide)

/-! ## Content partition (C5) -/

/-- A line that the loop folds into some section's content: not a header,
not blank. -/
def keepLine (l : Str) : Bool := (headerMatch l).isNone && !(pstrip l).isEmpty

/-- The final emission step of `_parse_markdown_to_sections` (the
`# Add final section` block). -/
def emitFinal (st : List PaperSection × CurSection) : List PaperSection :=
  if pstrip st.2.content ≠ [] then
    st.1 ++ [⟨st.2.title, pstrip st.2.content, st.2.level?.getD 1⟩]
  else st.1

theorem parse_eq_emitFinal (text : Str) :
    parseMarkdownToSections text =
      emitFinal ((splitNl text).foldl processLine ([], initialCur)) := rfl

theorem pstrip_joinNlTerm_ne_nil {cls : List Str} (hne : cls ≠ [])
    (hnb : ∀ l ∈ cls, pstrip l ≠ []) : pstrip (joinNlTerm cls) ≠ [] := by
  rcases cls with _ | ⟨x, xs⟩
  · exact absurd rfl hne
  · have hx : pstrip x ≠ [] := hnb x (List.mem_cons_self _ _)
    obtain ⟨c, hc, hw⟩ := pstrip_ne_nil_iff.mp hx
    exact pstrip_ne_nil_iff.mpr
      ⟨c, mem_joinNlTerm_of_mem (List.mem_cons_self _ _) hc, hw⟩

theorem content_lines_foldl :
    ∀ (lines : List Str), (∀ l ∈ lines, '\n' ∉ l) →
    ∀ (secs : List PaperSection) (cur : CurSection) (cls : List Str),
      cur.content = joinNlTerm cls → (∀ l ∈ cls, pstrip l ≠ []) →
      (∀ l ∈ cls, '\n' ∉ l) →
      ((emitFinal (lines.foldl processLine (secs, cur))).flatMap
          (fun s => splitNl s.content)).map pstrip =
        ((secs.flatMap (fun s => splitNl s.content)).map pstrip ++ cls.map pstrip) ++
          (lines.filter keepLine).map pstrip := by
  intro lines
  induction lines with
  | nil =>
    intro _ secs cur cls hc hnb hnl
    simp only [List.foldl_nil, List.filter_nil, List.map_nil, List.append_nil]
    unfold emitFinal
    by_cases hne : pstrip cur.content = []
    · rw [if_neg (by simpa using hne)]
      have hclsnil : cls = [] := by
        by_contra hcne
        exact pstrip_joinNlTerm_ne_nil hcne hnb (by rw [← hc]; exact hne)
      rw [hclsnil]
      simp
    · rw [if_pos (by simpa using hne)]
      have hclsne : cls ≠ [] := by
        rintro rfl
        rw [hc] at hne
        exact hne rfl
      rw [List.flatMap_append]
      simp only [List.flatMap_cons, List.flatMap_nil, List.append_nil, List.map_append]
      congr 1
      rw [hc]
      exact mapStrip_joinNlTerm hclsne hnb hnl
  | cons x xs ih =>
    intro hlines secs cur cls hc hnb hnl
    have htail := fun l hl => hlines l (List.mem_cons_of_mem _ hl)
    have hxnl : '\n' ∉ x := hlines x (List.mem_cons_self _ _)
    rw [List.foldl_cons]
    rcases hmm : headerMatch x with _ | ⟨hh, tt⟩
    · by_cases hb : pstrip x = []
      · have hstep : processLine (secs, cur) x = (secs, cur) := by
          simp [processLine, hmm, hb]
        have hfil : (x :: xs).filter keepLine = xs.filter keepLine := by
          simp [List.filter_cons, keepLine, hmm, hb]
        rw [hstep, hfil]
        exact ih htail secs cur cls hc hnb hnl
      · have hstep : processLine (secs, cur) x =
            (secs, { cur with content := cur.content ++ x ++ ['\n'] }) := by
          simp [processLine, hmm, hb]
        have hfil : (x :: xs).filter keepLine = x :: xs.filter keepLine := by
          simp [List.filter_cons, keepLine, hmm, isEmpty_false_of_ne hb]
        rw [hstep, hfil]
        have hcontent : ({ cur with content := cur.content ++ x ++ ['\n'] } :
            CurSection).content = joinNlTerm (cls ++ [x]) := by
          rw [joinNlTerm_append, ← hc, joinNlTerm_cons, joinNlTerm_nil]
          simp
        have hnb' : ∀ l ∈ cls ++ [x], pstrip l ≠ [] := by
          intro l hl
          rcases List.mem_append.mp hl with h | h
          · exact hnb l h
          · simp at h
            subst h
            exact hb
        have hnl' : ∀ l ∈ cls ++ [x], '\n' ∉ l := by
          intro l hl
          rcases List.mem_append.mp hl with h | h
          · exact hnl l h
          · simp at h
            subst h
            exact hxnl
        rw [ih htail secs _ (cls ++ [x]) hcontent hnb' hnl']
        simp [List.map_append, List.append_assoc]
    · have hfil : (x :: xs).filter keepLine = xs.filter keepLine := by
        simp [List.filter_cons, keepLine, hmm]
      by_cases hemit : pstrip cur.content = []
      · have hstep : processLine (secs, cur) x = (secs, ⟨pstrip tt, [], some hh⟩) := by
          simp [processLine, hmm, hemit]
        have hclsnil : cls = [] := by
          by_contra hcne
          exact pstrip_joinNlTerm_ne_nil hcne hnb (by rw [← hc]; exact hemit)
        rw [hstep, hfil]
        have hih := ih htail secs ⟨pstrip tt, [], some hh⟩ [] rfl (by simp) (by simp)
        rw [hih, hclsnil]
      · have hstep : processLine (secs, cur) x =
            (secs ++ [⟨cur.title, pstrip cur.content, 1⟩], ⟨pstrip tt, [], some hh⟩) := by
          simp [processLine, hmm, hemit]
        have hclsne : cls ≠ [] := by
          rintro rfl
          rw [hc] at hemit
          exact hemit rfl
        rw [hstep, hfil]
        have hih := ih htail (secs ++ [⟨cur.title, pstrip cur.content, 1⟩])
          ⟨pstrip tt, [], some hh⟩ [] rfl (by simp) (by simp)
        rw [hih, List.flatMap_append]
        simp only [List.flatMap_cons, List.flatMap_nil, List.append_nil, List.map_append]
        rw [hc, mapStrip_joinNlTerm hclsne hnb hnl]
        simp [List.append_assoc]

/-- C5 (amended): line-wise, up to whitespace trimming of each line, the
concatenated contents of the emitted sections are exactly the input's
lines with header lines and blank lines removed, in order (so sections
partition the kept input lines without overlap). -/
theorem c5_contents_partition_input (text : Str) :
    ((parseMarkdownToSections text).flatMap (fun s => splitNl s.content)).map pstrip =
      ((splitNl text).filter keepLine).map pstrip := by
  rw [parse_eq_emitFinal]
  have h := content_lines_foldl (splitNl text)
    (fun l hl hn => (mem_splitNl_no_nl hl hn).2 rfl) [] initialCur [] rfl
    (by simp) (by simp)
  simpa [initialCur] using h

/-- C5 counterexample: on the header-free input `" a"` the concatenated
section contents are `"a"`, which is not the input with its (zero) header
lines removed — stripping loses the leading blank. -/
theorem c5_counterexample :
    joinSep ['\n'] ((parseMarkdownToSections " a".data).map PaperSection.content) ≠
      joinSep ['\n'] ((splitNl " a".data).filter (fun l => (headerMatch l).isNone)) := by
  decide

/-! ## Roundtrip through header reconstruction (C4) -/

theorem length_dropWhile_le (p : Char → Bool) (l : Str) :
    (l.dropWhile p).length ≤ l.length := by
  have h := congrArg List.length (List.takeWhile_append_dropWhile p l)
  rw [List.length_append] at h
  omega

theorem head_not_ws_of_pstrip {s : Str} (hstr : pstrip s = s) (hne : s ≠ []) :
    ∃ c t, s = c :: t ∧ isWs c = false := by
  rcases s with _ | ⟨c, t⟩
  · exact absurd rfl hne
  · refine ⟨c, t, rfl, ?_⟩
    cases hcw : isWs c
    · rfl
    · exfalso
      have hr : ∀ x : Str, (rstrip x).length ≤ x.length := by
        intro x
        unfold rstrip
        rw [List.length_reverse]
        calc (x.reverse.dropWhile isWs).length
            ≤ x.reverse.length := length_dropWhile_le _ _
          _ = x.length := List.length_reverse _
      have h1 : lstrip (c :: t) = lstrip t := by
        simp [lstrip, List.dropWhile_cons, hcw]
      have h2 : (pstrip (c :: t)).length ≤ t.length := by
        unfold pstrip
        rw [h1]
        calc (rstrip (lstrip t)).length ≤ (lstrip t).length := hr _
          _ ≤ t.length := length_dropWhile_le _ _
      rw [hstr] at h2
      simp at h2

theorem headerMatch_hash_space {title : Str} (hne : title ≠ [])
    (hstr : pstrip title = title) :
    headerMatch ('#' :: ' ' :: title) = some (1, title) := by
  obtain ⟨c, t, rfl, hcw⟩ := head_not_ws_of_pstrip hstr hne
  have htk : (('#' :: ' ' :: c :: t).takeWhile (· == '#')) = ['#'] := by
    simp [List.takeWhile_cons]
  have htw : ((' ' :: c :: t).takeWhile isWs) = [' '] := by
    simp [List.takeWhile_cons, hcw, show isWs ' ' = true from rfl]
  simp only [headerMatch, htk]
  norm_num
  rw [htw]
  simp
  rfl

/-- The claim's reconstruction: the concatenation of
`"# " + title + "\n" + content` over the sections, exactly as written. -/
def reconstructChunks (secs : List PaperSection) : Str :=
  (secs.map (fun s => '#' :: ' ' :: s.title ++ '\n' :: s.content)).foldr (· ++ ·) []

/-- Reconstruction with each section's chunk terminated by a newline, so
that consecutive chunks do not merge the last content line with the next
header line. -/
def reconstructNl (secs : List PaperSection) : Str :=
  (secs.map (fun s => '#' :: ' ' :: s.title ++ '\n' :: s.content ++ ['\n'])).foldr (· ++ ·) []

/-- The lines of `reconstructNl secs`, without the trailing empty line. -/
def linesOf (secs : List PaperSection) : List Str :=
  secs.flatMap (fun s => ('#' :: ' ' :: s.title) :: splitNl s.content)

theorem reconstructNl_cons (s : PaperSection) (ss : List PaperSection) :
    reconstructNl (s :: ss) =
      ('#' :: ' ' :: s.title ++ '\n' :: s.content ++ ['\n']) ++ reconstructNl ss := by
  simp [reconstructNl]

theorem splitNl_reconstructNl {ss : List PaperSection}
    (hnl : ∀ s ∈ ss, '\n' ∉ s.title) :
    splitNl (reconstructNl ss) = linesOf ss ++ [[]] := by
  induction ss with
  | nil => rfl
  | cons s rest ih =>
    rw [reconstructNl_cons]
    have hhd : '\n' ∉ '#' :: ' ' :: s.title := by
      intro h
      rcases List.mem_cons.mp h with h1 | h
      · exact absurd h1 (by decide)
      · rcases List.mem_cons.mp h with h2 | h
        · exact absurd h2 (by decide)
        · exact hnl s (List.mem_cons_self _ _) h
    have hshape : ('#' :: ' ' :: s.title ++ '\n' :: s.content ++ ['\n']) ++ reconstructNl rest
        = ('#' :: ' ' :: s.title) ++ '\n' :: (s.content ++ '\n' :: reconstructNl rest) := by
      simp [List.append_assoc]
    rw [hshape, splitNl_append_nl, splitNl_of_no_nl hhd, splitNl_append_nl,
      ih (fun x hx => hnl x (List.mem_cons_of_mem _ hx))]
    simp [linesOf, List.flatMap_cons, List.append_assoc]

/-- The shape of sections as actually emitted by the segmenter when the
roundtrip claim's side conditions (non-empty title, all levels 1, no
content line matching the header pattern) hold. -/
def GoodSec (s : PaperSection) : Prop :=
  s.title ≠ [] ∧ pstrip s.title = s.title ∧ '\n' ∉ s.title ∧
    pstrip s.content = s.content ∧ s.content ≠ [] ∧
    (∀ l ∈ splitNl s.content, pstrip l ≠ []) ∧
    (∀ l ∈ splitNl s.content, headerMatch l = none) ∧ s.level = 1

theorem roundtrip_fold :
    ∀ (ss : List PaperSection), (∀ s ∈ ss, GoodSec s) →
    ∀ (secs : List PaperSection) (cur : CurSection), cur.level?.getD 1 = 1 →
      emitFinal ((linesOf ss ++ [[]]).foldl processLine (secs, cur)) =
        (if pstrip cur.content ≠ [] then
          secs ++ [⟨cur.title, pstrip cur.content, 1⟩] else secs) ++ ss := by
  intro ss
  induction ss with
  | nil =>
    intro _ secs cur hlv
    have hstep : processLine (secs, cur) [] = (secs, cur) := by
      have h2 : pstrip ([] : Str) = [] := rfl
      simp [processLine, show headerMatch [] = none from rfl, h2]
    simp only [linesOf, List.flatMap_nil, List.nil_append, List.foldl_cons,
      List.foldl_nil, hstep]
    unfold emitFinal
    by_cases hc : pstrip cur.content = []
    · rw [if_neg (by simpa using hc), if_neg (by simpa using hc)]
      simp
    · rw [if_pos (by simpa using hc), if_pos (by simpa using hc), hlv]
      simp
  | cons s rest ih =>
    intro hgood secs cur hlv
    obtain ⟨hT1, hT2, hT3, hC1, hC2, hCl, hCh, hL⟩ := hgood s (List.mem_cons_self _ _)
    have hgr := fun x hx => hgood x (List.mem_cons_of_mem _ hx)
    have hdecomp : linesOf (s :: rest) ++ [[]] =
        ('#' :: ' ' :: s.title) :: (splitNl s.content ++ (linesOf rest ++ [[]])) := by
      simp [linesOf, List.flatMap_cons, List.append_assoc]
    rw [hdecomp, List.foldl_cons]
    have hhm := headerMatch_hash_space hT1 hT2
    have hstep : processLine (secs, cur) ('#' :: ' ' :: s.title) =
        ((if pstrip cur.content ≠ [] then
            secs ++ [⟨cur.title, pstrip cur.content, 1⟩] else secs),
          ⟨pstrip s.title, [], some 1⟩) := by
      simp [processLine, hhm]
    rw [hstep, List.foldl_append, foldl_no_header hCh]
    have hfil : (splitNl s.content).filter (fun l => !(pstrip l).isEmpty) =
        splitNl s.content :=
      List.filter_eq_self.mpr (fun l hl => by simp [isEmpty_false_of_ne (hCl l hl)])
    rw [hfil]
    have hcontent : joinNlTerm (splitNl s.content) = s.content ++ ['\n'] := by
      rw [joinNlTerm_eq_joinSep (splitNl_ne_nil _), joinSep_nl_splitNl]
    rw [hcontent]
    have hih := ih hgr
      (if pstrip cur.content ≠ [] then
        secs ++ [⟨cur.title, pstrip cur.content, 1⟩] else secs)
      ⟨pstrip s.title, s.content ++ ['\n'], some 1⟩ (by simp)
    have hfinal : (if pstrip ((⟨pstrip s.title, s.content ++ ['\n'], some 1⟩ :
          CurSection).content) ≠ [] then
          (if pstrip cur.content ≠ [] then
            secs ++ [⟨cur.title, pstrip cur.content, 1⟩] else secs) ++
            [⟨(⟨pstrip s.title, s.content ++ ['\n'], some 1⟩ : CurSection).title,
              pstrip ((⟨pstrip s.title, s.content ++ ['\n'], some 1⟩ :
                CurSection).content), 1⟩]
        else (if pstrip cur.content ≠ [] then
          secs ++ [⟨cur.title, pstrip cur.content, 1⟩] else secs)) ++ rest =
        (if pstrip cur.content ≠ [] then
          secs ++ [⟨cur.title, pstrip cur.content, 1⟩] else secs) ++ s :: rest := by
      have hpc : pstrip (s.content ++ ['\n']) = s.content := by
        rw [pstrip_append_nl, hC1]
      simp only [hpc, hT2]
      rw [if_pos (by simpa using hC2)]
      have hsec : (⟨s.title, s.content, 1⟩ : PaperSection) = s := by
        cases s
        simp only at hL ⊢
        rw [hL]
      rw [hsec, List.append_assoc, List.singleton_append]
    exact hih.trans hfinal

/-- C4 (amended): if every section the segmenter emitted for `text` has a
non-empty title, level 1, and no content line that matches the header
pattern, then segmenting the reconstruction in which each section's chunk
`"# " + title + "\n" + content` is terminated by a newline reproduces the
exact section sequence.  (Levels other than 1 cannot round-trip since the
reconstruction uses a single marker, and the mid-loop emission hardcodes
level 1; chunks must be newline-terminated or a section's last content
line merges with the following header line.) -/
theorem c4_roundtrip (text : Str)
    (ht : ∀ s ∈ parseMarkdownToSections text, s.title ≠ [])
    (hl1 : ∀ s ∈ parseMarkdownToSections text, s.level = 1)
    (hnh : ∀ s ∈ parseMarkdownToSections text,
      ∀ l ∈ splitNl s.content, headerMatch l = none) :
    parseMarkdownToSections (reconstructNl (parseMarkdownToSections text)) =
      parseMarkdownToSections text := by
  have hgood : ∀ s ∈ parseMarkdownToSections text, GoodSec s := by
    intro s hs
    obtain ⟨i1, i2, i3, i4, i5, i6, i7⟩ := parse_sections_inv hs
    exact ⟨ht s hs, i1, i2, i3, i4, i5, hnh s hs, hl1 s hs⟩
  rw [parse_eq_emitFinal (reconstructNl _),
    splitNl_reconstructNl (fun s hs => (hgood s hs).2.2.1)]
  have h := roundtrip_fold (parseMarkdownToSections text) hgood [] initialCur
    (by simp [initialCur])
  simpa [initialCur, show pstrip ([] : Str) = [] from rfl] using h

/-- Witness for C4's amended theorem at the concrete input `"# A\nx"`. -/
theorem c4_roundtrip_witness :
    parseMarkdownToSections (reconstructNl (parseMarkdownToSections "# A\nx".data)) =
      parseMarkdownToSections "# A\nx".data :=
  c4_roundtrip "# A\nx".data (by decide) (by decide) (by decide)

/-- C4 counterexample: the sections of `"## A\nx"` satisfy the claim's
producibility caveats (non-empty title, non-blank content), yet segmenting
the literal concatenation `"# " + title + "\n" + content` does not
reproduce them: the emitted level is 1 while the original section carries
level 2. -/
theorem c4_counterexample :
    (∀ s ∈ parseMarkdownToSections "## A\nx".data,
      s.title ≠ [] ∧ pstrip s.content ≠ []) ∧
    parseMarkdownToSections (reconstructChunks (parseMarkdownToSections "## A\nx".data)) ≠
      parseMarkdownToSections "## A\nx".data := by decide

/-! ## The service and the vision backend

`PDFParserService.parse_pdf` (parser.py lines 59-82) and
`DeepSeekParser.parse_pdf` / `_validate_pdf` (deepseek.py).  File-system
facts observable by the code are collected in `PdfFile`; the OCR inference
call (out of scope per the spec) is a parameter `ocr`, with `none`
standing for an inference call that raises.
-/

/-- Observable facts about the file behind the input path. -/
structure PdfFile where
  fileExists : Bool
  size : Nat
  headerOk : Bool
  numPages : Nat
  ioError : Bool
  deriving DecidableEq, Repr

/-- The `DeepSeekParser` constructor configuration (resolution validation
happens at construction and is not modelled here). -/
structure DeepSeekCfg where
  maxPages : Nat
  maxFileSizeMb : Nat
  modelName : Str
  resolution : Str
  deriving DecidableEq, Repr

/-- `self.max_file_size_bytes = max_file_size_mb * 1024 * 1024`. -/
def DeepSeekCfg.maxFileSizeBytes (c : DeepSeekCfg) : Nat :=
  c.maxFileSizeMb * 1024 * 1024

/-- The distinct `PDFValidationError` values the code raises (in Python
they are one exception class distinguished only by message text); each
constructor carries the data interpolated into its message. -/
inductive ValidationErr where
  | fileNotFound (path : Str)
  | emptyFile (path : Str)
  | tooLarge (fileSize maxBytes : Nat)
  | badHeader (path : Str)
  | tooManyPages (actual maxPages : Nat)
  | wrapped (path : Str)
  deriving DecidableEq, Repr

/-- Rendering of `bytes / 1024 / 1024` with one decimal digit
(`f"{x:.1f}"`); CPython's float rounding is approximated by rational
rounding to the nearest tenth, which cannot affect any claim since the
substring checks below only ever match the letter parts of the
messages. -/
def fmtMB (bytes : Nat) : Str :=
  let tenths := (bytes * 10 + 524288) / 1048576
  Nat.toDigits 10 (tenths / 10) ++ '.' :: Nat.toDigits 10 (tenths % 10)

/-- The `str(e)` of each `PDFValidationError`, from the `raise` sites in
`_validate_pdf` and `PDFParserService.parse_pdf` (the `wrapped` message
truncates the interpolated inner exception text, which no claim
inspects). -/
def validationMsg : ValidationErr → Str
  | .fileNotFound p => "PDF file not found: ".data ++ p
  | .emptyFile p => "PDF file is empty: ".data ++ p
  | .tooLarge s m =>
    "PDF file too large: ".data ++ (fmtMB s ++ ("MB > ".data ++ (fmtMB m ++ "MB".data)))
  | .badHeader p => "File does not have PDF header: ".data ++ p
  | .tooManyPages a m =>
    "PDF has too many pages: ".data ++ (Nat.toDigits 10 a ++ (" > ".data ++ Nat.toDigits 10 m))
  | .wrapped p => "Error validating PDF ".data ++ (p ++ ": ...".data)

/-- The soft-skip test of the `except PDFValidationError` handler in
`DeepSeekParser.parse_pdf`:
`"too large" in str(e).lower() or "too many pages" in str(e).lower()`. -/
def isSoftSkip (e : ValidationErr) : Bool :=
  containsSub "too large".data (pyLower (validationMsg e)) ||
    containsSub "too many pages".data (pyLower (validationMsg e))

/-- `DeepSeekParser._validate_pdf`: short-circuiting checks in source
order; any I/O failure (including a vanished file) is wrapped into a
generic `PDFValidationError` by the catch-all handler. -/
def validatePdf (cfg : DeepSeekCfg) (path : Str) (f : PdfFile) :
    Except ValidationErr Unit :=
  if !f.fileExists || f.ioError then .error (.wrapped path)
  else if f.size = 0 then .error (.emptyFile path)
  else if cfg.maxFileSizeBytes < f.size then
    .error (.tooLarge f.size cfg.maxFileSizeBytes)
  else if !f.headerOk then .error (.badHeader path)
  else if cfg.maxPages < f.numPages then
    .error (.tooManyPages f.numPages cfg.maxPages)
  else .ok ()

/-- `ParserType` tags from `src/schemas/pdf_parser/models.py` (spec §3;
the schema file is not under the given sources). -/
inductive ParserType where
  | docling
  | deepseek
  deriving DecidableEq, Repr

/-- The metadata dict built by `DeepSeekParser.parse_pdf`. -/
structure DsMetadata where
  source : Str
  model : Str
  resolution : Str
  pagesProcessed : Nat
  deriving DecidableEq, Repr

/-- `PdfContent` (spec §3; constructor call in `DeepSeekParser.parse_pdf`).
`figures`, `tables` and `references` are always passed empty. -/
structure PdfContent where
  sections : List PaperSection
  figures : List Unit
  tables : List Unit
  rawText : Str
  references : List Unit
  parserUsed : ParserType
  metadata : DsMetadata
  deriving DecidableEq, Repr

/-- The two catchable error kinds of the pipeline:
`PDFValidationError` and `PDFParsingException`. -/
inductive ParseErr where
  | validation (e : ValidationErr)
  | parsing (msg : Str)
  deriving DecidableEq, Repr

/-- The `try`/`except` part of `DeepSeekParser.parse_pdf`, paired with the
temp-directory state at the moment the blocks exit, before the `finally`
(`none` if `tempfile.mkdtemp` was never reached, otherwise the number of
rendered page-image files under the directory).  A `PDFValidationError`
whose message passes the soft-skip test becomes `return None`; other
validation errors re-raise; the `raise PDFParsingException("No images
extracted ...")` is caught by the catch-all `except Exception` handler and
wrapped once more. -/
def deepseekTry (cfg : DeepSeekCfg) (path : Str) (f : PdfFile)
    (ocr : Nat → Option Str) : Except ParseErr (Option PdfContent) × Option Nat :=
  match validatePdf cfg path f with
  | .error e =>
    (if isSoftSkip e then .ok none else .error (.validation e), none)
  | .ok _ =>
    let numImages := min f.numPages cfg.maxPages
    if numImages = 0 then
      (.error (.parsing ("Failed to parse PDF with DeepSeek OCR: ".data ++
        ("No images extracted from PDF: ".data ++ path))), some 0)
    else
      let pageTexts := (List.range numImages).map fun i => (ocr i).getD []
      let fullMarkdown := joinSep ('\n' :: '\n' :: []) pageTexts
      (.ok (some
        { sections := parseMarkdownToSections fullMarkdown
          figures := []
          tables := []
          rawText := fullMarkdown
          references := []
          parserUsed := .deepseek
          metadata :=
            { source := "deepseek-ocr".data
              model := cfg.modelName
              resolution := cfg.resolution
              pagesProcessed := numImages } }), some numImages)

/-- The `finally` block of `DeepSeekParser.parse_pdf`:
`if temp_dir and temp_dir.exists(): shutil.rmtree(temp_dir)`. -/
def tempCleanup : Option Nat → Option Nat
  | none => none
  | some _ => none

/-- `DeepSeekParser.parse_pdf`: the `try`/`except` outcome with the
`finally` cleanup applied to the temp-directory state. -/
def deepseekParsePdf (cfg : DeepSeekCfg) (path : Str) (f : PdfFile)
    (ocr : Nat → Option Str) : Except ParseErr (Option PdfContent) × Option Nat :=
  let r := deepseekTry cfg path f ocr
  (r.1, tempCleanup r.2)

/-- `PDFParserService.parse_pdf`, with the configured backend abstracted
as a function; the second component records whether the backend was
invoked.  A falsy backend result (`None`) is converted into a raised
`PDFParsingException` ("... parsing returned no result ..."), and backend
errors of the two catchable kinds re-raise unchanged.  (The model fixes
`parser_type = "deepseek"`, the only backend whose source is given.) -/
def serviceParsePdf (backend : PdfFile → Except ParseErr (Option PdfContent))
    (path : Str) (f : PdfFile) : Except ParseErr PdfContent × Bool :=
  if !f.fileExists then
    (.error (.validation (.fileNotFound path)), false)
  else
    match backend f with
    | .ok (some c) => (.ok c, true)
    | .ok none =>
      (.error (.parsing ("deepseek parsing returned no result for ".data ++ path)), true)
    | .error e => (.error e, true)

theorem startsWith_append {p a : Str} (h : startsWith p a = true) (b : Str) :
    startsWith p (a ++ b) = true := by
  induction p generalizing a with
  | nil => rfl
  | cons x xs ih =>
    cases a with
    | nil => simp [startsWith] at h
    | cons c cs =>
      simp only [startsWith, Bool.and_eq_true] at h
      simp only [List.cons_append, startsWith, Bool.and_eq_true]
      exact ⟨h.1, ih h.2⟩

theorem containsSub_append_right {p a : Str} (h : containsSub p a = true) (b : Str) :
    containsSub p (a ++ b) = true := by
  induction a with
  | nil =>
    simp only [containsSub, beq_iff_eq] at h
    subst h
    cases b with
    | nil => rfl
    | cons c cs => simp [containsSub, startsWith]
  | cons c cs ih =>
    simp only [containsSub, Bool.or_eq_true] at h
    rw [List.cons_append]
    simp only [containsSub, Bool.or_eq_true]
    rcases h with h1 | h1
    · exact Or.inl (by simpa using startsWith_append h1 b)
    · exact Or.inr (ih h1)

theorem pyLower_append (a b : Str) : pyLower (a ++ b) = pyLower a ++ pyLower b :=
  List.map_append Char.toLower a b

theorem isSoftSkip_tooLarge (s m : Nat) : isSoftSkip (.tooLarge s m) = true := by
  unfold isSoftSkip
  rw [Bool.or_eq_true]
  refine Or.inl ?_
  rw [show validationMsg (.tooLarge s m) = "PDF file too large: ".data ++
    (fmtMB s ++ ("MB > ".data ++ (fmtMB m ++ "MB".data))) from rfl, pyLower_append]
  exact containsSub_append_right (by decide) _

theorem isSoftSkip_tooManyPages (a m : Nat) : isSoftSkip (.tooManyPages a m) = true := by
  unfold isSoftSkip
  rw [Bool.or_eq_true]
  refine Or.inr ?_
  rw [show validationMsg (.tooManyPages a m) = "PDF has too many pages: ".data ++
    (Nat.toDigits 10 a ++ (" > ".data ++ Nat.toDigits 10 m)) from rfl, pyLower_append]
  exact containsSub_append_right (by decide) _

/-! ## Claim theorems: service and backend -/

/-- C9: on every exit path of the vision backend's `parse_pdf` — soft
skip, re-raised validation error, extraction failure, or success — the
`finally` block removes the call-scoped temporary directory of page
images, so no temporary page-image file remains after the call. -/
theorem c9_temp_cleanup (cfg : DeepSeekCfg) (path : Str) (f : PdfFile)
    (ocr : Nat → Option Str) : (deepseekParsePdf cfg path f ocr).2 = none := by
  show tempCleanup (deepseekTry cfg path f ocr).2 = none
  cases (deepseekTry cfg path f ocr).2 <;> rfl

/-- C7: for every backend, calling the service's `parse_pdf` on a path
that does not exist fails with the distinct caller-input error
(`fileNotFound`, raised by the service before any validation) and the
backend is never invoked. -/
theorem c7_missing_file (backend : PdfFile → Except ParseErr (Option PdfContent))
    (path : Str) (f : PdfFile) (h : f.fileExists = false) :
    serviceParsePdf backend path f =
      (.error (.validation (.fileNotFound path)), false) := by
  unfold serviceParsePdf
  rw [h]
  rfl

/-- Witness for C7 at a concrete missing file. -/
theorem c7_missing_file_witness :
    serviceParsePdf (fun _ => .ok none) "p.pdf".data
      ⟨false, 100, true, 3, false⟩ =
      (.error (.validation (.fileNotFound "p.pdf".data)), false) :=
  c7_missing_file (fun _ => .ok none) "p.pdf".data ⟨false, 100, true, 3, false⟩ rfl

/-- C1 (amended): for every document that exists and whose size exceeds
the configured byte limit — or that passes the earlier checks (non-empty,
within the size limit, valid header) and exceeds the page limit — the
*backend's* `parse_pdf` returns no result (`None`, the soft skip), but the
*service's* `parse_pdf` entry point then raises an extraction error
("parsing returned no result") rather than returning "no result". -/
theorem c1_limit_exceeded_service_raises (cfg : DeepSeekCfg) (path : Str)
    (f : PdfFile) (ocr : Nat → Option Str)
    (hex : f.fileExists = true) (hio : f.ioError = false)
    (hlim : cfg.maxFileSizeBytes < f.size ∨
      (0 < f.size ∧ f.size ≤ cfg.maxFileSizeBytes ∧ f.headerOk = true ∧
        cfg.maxPages < f.numPages)) :
    (deepseekParsePdf cfg path f ocr).1 = .ok none ∧
    (serviceParsePdf (fun g => (deepseekParsePdf cfg path g ocr).1) path f).1 =
      .error (.parsing ("deepseek parsing returned no result for ".data ++ path)) := by
  obtain ⟨e, hve, hss⟩ : ∃ e, validatePdf cfg path f = .error e ∧ isSoftSkip e = true := by
    unfold validatePdf
    rw [hex, hio, if_neg (by decide)]
    rcases hlim with h | ⟨h1, h2, h3, h4⟩
    · rw [if_neg (by omega), if_pos h]
      exact ⟨_, rfl, isSoftSkip_tooLarge _ _⟩
    · rw [if_neg (by omega), if_neg (by omega), h3, if_neg (by decide), if_pos h4]
      exact ⟨_, rfl, isSoftSkip_tooManyPages _ _⟩
  have hds : (deepseekParsePdf cfg path f ocr).1 = .ok none := by
    show (deepseekTry cfg path f ocr).1 = .ok none
    unfold deepseekTry
    rw [hve]
    simp [hss]
  refine ⟨hds, ?_⟩
  unfold serviceParsePdf
  rw [hex, if_neg (by decide)]
  simp only [hds]

/-- Witness for C1's amended theorem: an existing 20 MB + 1 byte file
against the default 20 MB limit. -/
theorem c1_limit_exceeded_service_raises_witness :
    (deepseekParsePdf ⟨30, 20, "m".data, "base".data⟩ "p.pdf".data
        ⟨true, 20971521, true, 3, false⟩ (fun _ => some ['x'])).1 = .ok none ∧
    (serviceParsePdf (fun g => (deepseekParsePdf ⟨30, 20, "m".data, "base".data⟩
        "p.pdf".data g (fun _ => some ['x'])).1) "p.pdf".data
        ⟨true, 20971521, true, 3, false⟩).1 =
      .error (.parsing ("deepseek parsing returned no result for ".data ++ "p.pdf".data)) :=
  c1_limit_exceeded_service_raises ⟨30, 20, "m".data, "base".data⟩ "p.pdf".data
    ⟨true, 20971521, true, 3, false⟩ (fun _ => some ['x']) rfl rfl
    (Or.inl (by decide))

/-- C1 counterexample: the same over-limit file: the service's `parse_pdf`
raises (`PDFParsingException`, "parsing returned no result"), so the
service does not return "no result" for a limit-exceeded document — the
soft skip exists only at the backend level. -/
theorem c1_counterexample :
    (serviceParsePdf (fun g => (deepseekParsePdf ⟨30, 20, "m".data, "base".data⟩
        "p.pdf".data g (fun _ => some ['x'])).1) "p.pdf".data
        ⟨true, 20971521, true, 3, false⟩).1 =
      .error (.parsing "deepseek parsing returned no result for p.pdf".data) := by
  rfl

theorem headerMatch_none_of_blank {l : Str} (hb : pstrip l = []) :
    headerMatch l = none := by
  have h0 : (l.takeWhile (· == '#')).length = 0 := by
    by_contra hne
    obtain ⟨c, hc⟩ : ∃ c, c ∈ l.takeWhile (· == '#') := by
      rcases htw : l.takeWhile (· == '#') with _ | ⟨y, ys⟩
      · rw [htw] at hne
        simp at hne
      · exact ⟨y, htw ▸ List.mem_cons_self y ys⟩
    have hsharp : c = '#' := by simpa using List.mem_takeWhile_imp hc
    have hws := pstrip_eq_nil_iff.mp hb c (mem_of_mem_takeWhile hc)
    rw [hsharp] at hws
    exact absurd hws (by decide)
  simp only [headerMatch, h0]
  rw [if_neg (by omega)]

theorem parse_blank {text : Str} (hb : pstrip text = []) :
    parseMarkdownToSections text = [] := by
  have hlines : ∀ l ∈ splitNl text, pstrip l = [] := by
    intro l hl
    rw [pstrip_eq_nil_iff]
    exact fun c hc => pstrip_eq_nil_iff.mp hb c (mem_splitNl_no_nl hl hc).1
  have hnh : ∀ l ∈ splitNl text, headerMatch l = none :=
    fun l hl => headerMatch_none_of_blank (hlines l hl)
  rw [parse_eq_emitFinal, foldl_no_header hnh]
  have hfil : (splitNl text).filter (fun l => !(pstrip l).isEmpty) = [] := by
    rw [List.filter_eq_nil_iff]
    intro l hl
    simp [hlines l hl]
  rw [hfil]
  unfold emitFinal
  simp [initialCur, joinNlTerm, show pstrip ([] : Str) = [] from rfl]

theorem mem_joinSep_all_nil {sep : Str} {ls : List Str}
    (hls : ∀ l ∈ ls, l = ([] : Str)) {c : Char} (hc : c ∈ joinSep sep ls) :
    c ∈ sep := by
  induction ls with
  | nil => simp [joinSep] at hc
  | cons x xs ih =>
    cases xs with
    | nil =>
      simp only [joinSep] at hc
      rw [hls x (List.mem_cons_self _ _)] at hc
      simp at hc
    | cons y ys =>
      simp only [joinSep, List.append_assoc, List.mem_append] at hc
      rcases hc with h | h
      · rw [hls x (List.mem_cons_self _ _)] at h
        simp at h
      · rcases h with h | h
        · exact h
        · exact ih (fun l hl => hls l (List.mem_cons_of_mem _ hl)) h

/-- C3 (amended): when validation passes, at least one page image is
materialized, and OCR yields the empty string on every materialized page
(each individual inference failure degrading to `""`), the vision backend
does **not** report an extraction failure: it returns a successful
`PdfContent` with no sections and blank raw text. -/
theorem c3_all_pages_empty_returns_success (cfg : DeepSeekCfg) (path : Str)
    (f : PdfFile) (ocr : Nat → Option Str)
    (hex : f.fileExists = true) (hio : f.ioError = false)
    (h0 : 0 < f.size) (hsz : f.size ≤ cfg.maxFileSizeBytes)
    (hhd : f.headerOk = true) (hpg : f.numPages ≤ cfg.maxPages)
    (hn : 0 < min f.numPages cfg.maxPages)
    (hocr : ∀ i < min f.numPages cfg.maxPages, (ocr i).getD [] = []) :
    ∃ c : PdfContent, (deepseekParsePdf cfg path f ocr).1 = .ok (some c) ∧
      c.sections = [] ∧ pstrip c.rawText = [] := by
  have hval : validatePdf cfg path f = .ok () := by
    unfold validatePdf
    rw [hex, hio, if_neg (by decide), if_neg (by omega), if_neg (by omega), hhd,
      if_neg (by decide), if_neg (by omega)]
  have hpt : (List.range (min f.numPages cfg.maxPages)).map (fun i => (ocr i).getD []) =
      List.replicate (min f.numPages cfg.maxPages) ([] : Str) := by
    have hmem : ∀ b ∈ (List.range (min f.numPages cfg.maxPages)).map
        (fun i => (ocr i).getD []), b = ([] : Str) := by
      intro b hb
      obtain ⟨i, hi, rfl⟩ := List.mem_map.mp hb
      exact hocr i (List.mem_range.mp hi)
    have h := List.eq_replicate_of_mem hmem
    rwa [List.length_map, List.length_range] at h
  have hraw : pstrip (joinSep ('\n' :: '\n' :: [])
      (List.replicate (min f.numPages cfg.maxPages) ([] : Str))) = [] := by
    rw [pstrip_eq_nil_iff]
    intro c hc
    have hmem := mem_joinSep_all_nil (fun l hl => List.eq_of_mem_replicate hl) hc
    have : c = '\n' := by simpa using hmem
    rw [this]
    rfl
  have hsec := parse_blank hraw
  show ∃ c, (deepseekTry cfg path f ocr).1 = .ok (some c) ∧ _
  unfold deepseekTry
  rw [hval]
  simp only [if_neg (by omega : ¬ min f.numPages cfg.maxPages = 0), hpt]
  exact ⟨_, rfl, hsec, hraw⟩

/-- Witness for C3's amended theorem: a valid one-page file whose single
OCR call raises (degrading to the empty string). -/
theorem c3_all_pages_empty_returns_success_witness :
    ∃ c : PdfContent, (deepseekParsePdf ⟨30, 20, "m".data, "base".data⟩ "p.pdf".data
        ⟨true, 100, true, 1, false⟩ (fun _ => none)).1 = .ok (some c) ∧
      c.sections = [] ∧ pstrip c.rawText = [] :=
  c3_all_pages_empty_returns_success ⟨30, 20, "m".data, "base".data⟩ "p.pdf".data
    ⟨true, 100, true, 1, false⟩ (fun _ => none) rfl rfl (by decide) (by decide)
    rfl (by decide) (by decide) (fun i _ => rfl)

/-- C3 counterexample: with every page's OCR failing (each degrading to
the empty string), the backend returns a successful `PdfContent` — empty
section list, blank raw text — instead of reporting an extraction
failure. -/
theorem c3_counterexample :
    (deepseekParsePdf ⟨30, 20, "m".data, "base".data⟩ "p.pdf".data
        ⟨true, 100, true, 1, false⟩ (fun _ => none)).1 =
      .ok (some
        { sections := []
          figures := []
          tables := []
          rawText := []
          references := []
          parserUsed := .deepseek
          metadata :=
            { source := "deepseek-ocr".data
              model := "m".data
              resolution := "base".data
              pagesProcessed := 1 } }) := by
  rfl
